import Mathlib

/-!
Verification of the parser-combinator library in `utils/parser.py` of the
AdventOfCode2021 repository.

The Python classes are shallowly embedded as an inductive `Parser` tree and a
fuel-indexed evaluator `parseP`.  Fuel models the recursion/iteration budget of
the Python interpreter: a result of `none` means the computation has not
finished within the given fuel, so "`none` for every fuel" is divergence.
A raised `ParseException` is the outcome `PRes.exc r` (with `r` naming the
raise site); any other uncaught Python exception (the `IndexError` from an
unguarded `data[offset]`) is the distinct outcome `PRes.crash`, which
`Repeat`'s `except ParseException:` handler does not catch.
-/

namespace AoC

/-- Python values flowing through the combinators: strings, ints, `None`, and
lists (Python tuples produced by `Pair` are modelled as two-element lists,
which matches how every transform in the source indexes into them). -/
inductive Value where
  | str (s : List Char)
  | int (n : Int)
  | vnone
  | list (vs : List Value)

/-- The `result.result is not None` test used by `Repeat` and `Series`. -/
def Value.isNone : Value → Bool
  | .vnone => true
  | _ => false

/-- Which raise site of `parser.py` produced a `ParseException`. -/
inductive Reason where
  | endOfInput
  | unexpectedChar
  | illegalChar
  | insufficientReps
  | postParse
deriving DecidableEq

/-- Outcome of one `_parse` call: a `ParseResult(value, new_offset)`, a raised
`ParseException`, or an uncaught non-parse exception (`IndexError`). -/
inductive PRes where
  | ok (v : Value) (off : Nat)
  | exc (r : Reason)
  | crash

/-- Outcome of `Repeat`'s `while True` loop body, before the `min` check. -/
inductive LoopRes where
  | done (acc : List Value) (off : Nat)
  | crash

/-- Outcome of `Parser.parse_string` (the offset of the final `ParseResult`
is discarded: `return self._parse(data, 0).result`). -/
inductive SRes where
  | ok (v : Value)
  | exc (r : Reason)
  | crash

/-- The combinator tree of `parser.py`: `Char`, `Repeat`, `Pair`, `Series`,
`FunctionParser`.  Post-parse transforms are arbitrary functions; `none`
models the transform raising (caught and converted by `FunctionParser`). -/
inductive Parser where
  | char (allowed : Option (List Char)) (illegal : List Char)
  | rep (child : Parser) (sep : Option Parser) (mn : Option Nat) (mx : Option Nat)
  | pair (p1 : Parser) (p2 : Parser)
  | series (children : List Parser) (sep : Option Parser)
  | funP (child : Parser) (post : Value → Option Value)

/-- `Char._parse_impl`.  The guard in the source is `offset == len(data)`;
an offset strictly past the end reaches the unguarded `data[offset]` and
raises `IndexError`, modelled by `PRes.crash`. -/
def charImpl (allowed : Option (List Char)) (illegal : List Char)
    (data : List Char) (off : Nat) : PRes :=
  if off = data.length then .exc .endOfInput
  else
    match data.get? off with
    | none => .crash
    | some c =>
      match allowed with
      | some s =>
        if s.contains c then
          if illegal.contains c then .exc .illegalChar
          else .ok (.str [c]) (off + 1)
        else .exc .unexpectedChar
      | none =>
        if illegal.contains c then .exc .illegalChar
        else .ok (.str [c]) (off + 1)

mutual

/-- Fuel-indexed evaluator for `_parse`.  One unit of fuel is consumed per
`_parse` call and per `Repeat`/`Series` loop iteration. -/
def parseP (fuel : Nat) (p : Parser) (data : List Char) (off : Nat) : Option PRes :=
  match fuel, p with
  | 0, _ => none
  | _ + 1, .char a i => some (charImpl a i data off)
  | f + 1, .rep c sep mn mx =>
    match repLoop f c sep mx data off [] with
    | none => none
    | some .crash => some .crash
    | some (.done res o) =>
      match mn with
      | some m => if res.length < m then some (.exc .insufficientReps)
                  else some (.ok (.list res) o)
      | none => some (.ok (.list res) o)
  | f + 1, .pair p1 p2 =>
    match parseP f p1 data off with
    | none => none
    | some (.ok v1 o1) =>
      match parseP f p2 data o1 with
      | none => none
      | some (.ok v2 o2) => some (.ok (.list [v1, v2]) o2)
      | some e => some e
    | some e => some e
  | f + 1, .series ps sep => seriesLoop f ps sep data off []
  | f + 1, .funP p t =>
    match parseP f p data off with
    | none => none
    | some (.ok v o) =>
      match t v with
      | some v2 => some (.ok v2 o)
      | none => some (.exc .postParse)
    | some e => some e

/-- The `while True` loop of `Repeat._parse_impl`.  When a separator is
configured and `results` is nonempty the separator runs first and, on
success, `offset` is updated before the child is attempted; a
`ParseException` from either the separator or the child breaks the loop,
returning the offset reached so far (which therefore includes the text
consumed by a successful separator whose following child failed). -/
def repLoop (fuel : Nat) (c : Parser) (sep : Option Parser) (mx : Option Nat)
    (data : List Char) (off : Nat) (acc : List Value) : Option LoopRes :=
  match fuel with
  | 0 => none
  | f + 1 =>
    match (match sep, acc with
           | some s, _ :: _ => parseP f s data off
           | _, _ => some (.ok Value.vnone off)) with
    | none => none
    | some .crash => some .crash
    | some (.exc _) => some (.done acc off)
    | some (.ok _ o1) =>
      match parseP f c data o1 with
      | none => none
      | some .crash => some .crash
      | some (.exc _) => some (.done acc o1)
      | some (.ok v o2) =>
        let acc2 := if v.isNone then acc else acc ++ [v]
        match mx with
        | some m => if acc2.length = m then some (.done acc2 o2)
                    else repLoop f c sep mx data o2 acc2
        | none => repLoop f c sep mx data o2 acc2

/-- The `for parser in self.parsers` loop of `Series._parse_impl`; unlike
`Repeat` there is no exception handler, so failures propagate. -/
def seriesLoop (fuel : Nat) (ps : List Parser) (sep : Option Parser)
    (data : List Char) (off : Nat) (acc : List Value) : Option PRes :=
  match fuel, ps with
  | _, [] => some (.ok (.list acc) off)
  | 0, _ :: _ => none
  | f + 1, p :: rest =>
    match (match sep, acc with
           | some s, _ :: _ => parseP f s data off
           | _, _ => some (.ok Value.vnone off)) with
    | none => none
    | some (.ok _ o1) =>
      match parseP f p data o1 with
      | none => none
      | some (.ok v o2) =>
        seriesLoop f rest sep data o2 (if v.isNone then acc else acc ++ [v])
      | some e => some e
    | some e => some e

end

/-- The separator gate shared by the loops of `Repeat` and `Series`:
`if self.separator_parser is not None and results:` run the separator and
use its new offset; otherwise proceed from the current offset.  The trivial
branch is modelled as an immediate zero-consumption success. -/
def repSepStep (fuel : Nat) (sep : Option Parser) (data : List Char)
    (off : Nat) (acc : List Value) : Option PRes :=
  match sep, acc with
  | some s, _ :: _ => parseP fuel s data off
  | _, _ => some (.ok Value.vnone off)

/-- One unfolding of `repLoop`, phrased via `repSepStep`. -/
theorem repLoop_succ (f : Nat) (c : Parser) (sep : Option Parser) (mx : Option Nat)
    (data : List Char) (off : Nat) (acc : List Value) :
    repLoop (f+1) c sep mx data off acc =
      match repSepStep f sep data off acc with
      | none => none
      | some .crash => some .crash
      | some (.exc _) => some (.done acc off)
      | some (.ok _ o1) =>
        match parseP f c data o1 with
        | none => none
        | some .crash => some .crash
        | some (.exc _) => some (.done acc o1)
        | some (.ok v o2) =>
          let acc2 := if v.isNone then acc else acc ++ [v]
          match mx with
          | some m => if acc2.length = m then some (.done acc2 o2)
                      else repLoop f c sep mx data o2 acc2
          | none => repLoop f c sep mx data o2 acc2 := rfl

/-- One unfolding of `seriesLoop` on a nonempty parser list, phrased via
`repSepStep`. -/
theorem seriesLoop_cons (f : Nat) (p : Parser) (rest : List Parser)
    (sep : Option Parser) (data : List Char) (off : Nat) (acc : List Value) :
    seriesLoop (f+1) (p :: rest) sep data off acc =
      match repSepStep f sep data off acc with
      | none => none
      | some (.ok _ o1) =>
        match parseP f p data o1 with
        | none => none
        | some (.ok v o2) =>
          seriesLoop f rest sep data o2 (if v.isNone then acc else acc ++ [v])
        | some e => some e
      | some e => some e := rfl

/-- `Parser.parse_string`: run at offset 0 and return `.result`, discarding
the final offset (no full-consumption check). -/
def parseString (fuel : Nat) (p : Parser) (data : List Char) : Option SRes :=
  match parseP fuel p data 0 with
  | none => none
  | some (.ok v _) => some (.ok v)
  | some (.exc r) => some (.exc r)
  | some .crash => some .crash

/-- The `parse` decorator: read the input, run the parser, feed the value to
the business function (file reading is modelled by passing the contents). -/
def parseAdapter (p : Parser) (g : Value → Value) (fuel : Nat)
    (contents : List Char) : Option SRes :=
  match parseString fuel p contents with
  | some (.ok v) => some (.ok (g v))
  | r => r

/-- A parse run converges to outcome `r` for some fuel (by `parseP_mono_le`,
for every larger fuel as well). -/
def Runs (p : Parser) (data : List Char) (off : Nat) (r : PRes) : Prop :=
  ∃ f, parseP f p data off = some r

/-- A parse run raises a `ParseException` (the only failure `Repeat`
catches; `crash` is not included). -/
def FailsExc (p : Parser) (data : List Char) (off : Nat) : Prop :=
  ∃ f r, parseP f p data off = some (.exc r)

/-- Spec-side contract of the atomic character parser, following the amended
claim wording: an offset equal to the input length fails with end-of-input;
an offset strictly past the end performs the unguarded index access (an
uncaught error, not a parse failure); otherwise the allow-set is checked
first, then the deny-set, then the parse succeeds with the single character
and offset + 1. -/
def charSpec (allowed : Option (List Char)) (illegal : List Char)
    (data : List Char) (off : Nat) : PRes :=
  if off = data.length then .exc .endOfInput
  else if data.length < off then .crash
  else
    match data.get? off with
    | none => .crash
    | some c =>
      match allowed with
      | some s =>
        if c ∈ s then
          if c ∈ illegal then .exc .illegalChar else .ok (.str [c]) (off + 1)
        else .exc .unexpectedChar
      | none =>
        if c ∈ illegal then .exc .illegalChar else .ok (.str [c]) (off + 1)

/-- A sequence of consecutive successful parses of one child parser, each
producing a value that is not `None`: `Chain c data off vs oEnd` says the
child succeeds at `off`, then at each successive offset, yielding the
values `vs` and stopping at `oEnd`. -/
inductive Chain (c : Parser) (data : List Char) : Nat → List Value → Nat → Prop where
  | nil (off : Nat) : Chain c data off [] off
  | cons {off : Nat} {v : Value} {o1 : Nat} {vs : List Value} {oEnd : Nat} :
      Runs c data off (.ok v o1) → v ≠ .vnone → Chain c data o1 vs oEnd →
      Chain c data off (v :: vs) oEnd

/-- The outcome a two-child `Series` whose first child was suppressed
produces from the outcome of its second child: a success contributes its
value (unless it is `None`), a failure propagates. -/
def seriesTailOutcome (rq : PRes) : PRes :=
  match rq with
  | .ok w o2 => .ok (.list (if w.isNone then [] else [w])) o2
  | e => e

/-- The characters of `string.digits`. -/
def digitsList : List Char := ['0','1','2','3','4','5','6','7','8','9']

/-- Concatenate a list of string values; `none` on a non-string element
(Python `TypeError` from `str.join`). -/
def joinStrs : List Value → Option (List Char)
  | [] => some []
  | .str s :: rest => (joinStrs rest).map (fun t => s ++ t)
  | _ => none

/-- The `"".join` post-parse transform used by `String` and `Literal`. -/
def joinT : Value → Option Value
  | .str s => some (.str s)
  | .list vs => (joinStrs vs).map .str
  | _ => none

/-- `String(allowed_chars, illegal_chars)`:
`FunctionParser(Repeat(Char(allowed_chars, illegal_chars)), "".join)`. -/
def StringP (allowed : Option (List Char)) (illegal : List Char) : Parser :=
  .funP (.rep (.char allowed illegal) none none none) joinT

/-- Python `str.lstrip(chars)` restricted to an explicit character set
(for `chars = ""` nothing is stripped, as in Python). -/
def lstrip (chars : List Char) (s : List Char) : List Char :=
  s.dropWhile (fun c => chars.contains c)

/-- Python `int(s, base)` on the strings that can reach it here: `None`
(`ValueError`) on the empty string or any character that is not a digit
valid in the base, otherwise the numeric value. -/
def pyInt (base : Nat) (s : List Char) : Option Int :=
  if s = [] then none
  else if s.all (fun c => c.isDigit && c.toNat - 48 < base) then
    some (Int.ofNat (s.foldl (fun acc c => acc * base + (c.toNat - 48)) 0))
  else none

/-- The `lambda x: int(x[1].lstrip(padding), base)` transform of `Int`. -/
def intT (base : Nat) (padding : List Char) : Value → Option Value
  | .list [_, .str s] => (pyInt base (lstrip padding s)).map .int
  | _ => none

/-- `Int(base, padding)`:
`FunctionParser(Pair(String(padding), String(digits)), lambda ...)`. -/
def IntP (base : Nat) (padding : List Char) : Parser :=
  .funP (.pair (StringP (some padding) ['\n']) (StringP (some digitsList) ['\n']))
    (intT base padding)

/-- `Literal(lit)`: a `Series` of single-character `Char` parsers joined. -/
def LiteralP (lit : List Char) : Parser :=
  .funP (.series (lit.map (fun c => .char (some [c]) [])) none) joinT

/-- The module-level `NewLine = Char(allowed_chars="\n", illegal_chars="")`. -/
def NewLineP : Parser := .char (some ['\n']) []

/-- The `lambda x: x[0]` transform of `IgnoreNewline`. -/
def firstT : Value → Option Value
  | .list [a, _] => some a
  | _ => none

/-- `IgnoreNewline(parser)`: `FunctionParser(Pair(parser, NewLine), lambda x: x[0])`. -/
def IgnoreNewlineP (p : Parser) : Parser := .funP (.pair p NewLineP) firstT

/-- `Suppress(parser)`: `FunctionParser(parser, lambda x: None)`. -/
def SuppressP (p : Parser) : Parser := .funP p (fun _ => some .vnone)

/-- The module-level `Line = IgnoreNewline(String())`. -/
def LineP : Parser := IgnoreNewlineP (StringP none ['\n'])

/-- The module-level `Lines = Repeat(Line)`. -/
def LinesP : Parser := .rep LineP none none none


/-! ## Fuel monotonicity: a finished run is stable under extra fuel -/

/-- One-step fuel monotonicity for the evaluator, the separator gate, and
both loops. -/
theorem mono_step : ∀ f,
    (∀ p data off r, parseP f p data off = some r → parseP (f+1) p data off = some r)
    ∧ (∀ sep data off acc r, repSepStep f sep data off acc = some r →
        repSepStep (f+1) sep data off acc = some r)
    ∧ (∀ c sep mx data off acc r, repLoop f c sep mx data off acc = some r →
        repLoop (f+1) c sep mx data off acc = some r)
    ∧ (∀ ps sep data off acc r, seriesLoop f ps sep data off acc = some r →
        seriesLoop (f+1) ps sep data off acc = some r) := by
  intro f
  induction f with
  | zero =>
    refine ⟨?_, ?_, ?_, ?_⟩
    · intro p data off r h; simp [parseP] at h
    · intro sep data off acc r h
      match sep, acc with
      | some s, _ :: _ => simp [repSepStep, parseP] at h
      | some s, [] => simpa [repSepStep] using h
      | none, a => simpa [repSepStep] using h
    · intro c sep mx data off acc r h; simp [repLoop] at h
    · intro ps sep data off acc r h
      match ps with
      | [] => simpa [seriesLoop] using h
      | p :: rest => simp [seriesLoop] at h
  | succ f ih =>
    obtain ⟨ihP, ihG, ihR, ihS⟩ := ih
    have hP : ∀ p data off r, parseP (f+1) p data off = some r →
        parseP (f+1+1) p data off = some r := by
      intro p data off r h
      match p with
      | .char a i => simpa [parseP] using h
      | .rep c sep mn mx =>
        simp only [parseP] at h ⊢
        cases hr : repLoop f c sep mx data off [] with
        | none => simp [hr] at h
        | some lr =>
          simp only [ihR _ _ _ _ _ _ _ hr]
          simp only [hr] at h
          exact h
      | .pair p1 p2 =>
        simp only [parseP] at h ⊢
        cases h1 : parseP f p1 data off with
        | none => simp [h1] at h
        | some r1 =>
          simp only [ihP _ _ _ _ h1]
          simp only [h1] at h
          cases r1 with
          | ok v1 o1 =>
            cases h2 : parseP f p2 data o1 with
            | none => simp [h2] at h
            | some r2 =>
              simp only [ihP _ _ _ _ h2]
              simp only [h2] at h
              exact h
          | exc r2 => exact h
          | crash => exact h
      | .series ps sep =>
        simp only [parseP] at h ⊢
        exact ihS _ _ _ _ _ _ h
      | .funP p t =>
        simp only [parseP] at h ⊢
        cases h1 : parseP f p data off with
        | none => simp [h1] at h
        | some r1 =>
          simp only [ihP _ _ _ _ h1]
          simp only [h1] at h
          exact h
    refine ⟨hP, ?_, ?_, ?_⟩
    · intro sep data off acc r h
      match sep, acc with
      | some s, _ :: _ =>
        simp only [repSepStep] at h ⊢
        exact hP _ _ _ _ h
      | some s, [] => simpa [repSepStep] using h
      | none, a => simpa [repSepStep] using h
    · intro c sep mx data off acc r h
      rw [repLoop_succ] at h ⊢
      cases hs : repSepStep f sep data off acc with
      | none => simp [hs] at h
      | some rs =>
        simp only [ihG _ _ _ _ _ hs]
        simp only [hs] at h
        cases rs with
        | ok v1 o1 =>
          cases h1 : parseP f c data o1 with
          | none => simp [h1] at h
          | some r1 =>
            simp only [ihP _ _ _ _ h1]
            simp only [h1] at h
            cases r1 with
            | ok v o2 =>
              cases mx with
              | none =>
                simp only at h ⊢
                exact ihR _ _ _ _ _ _ _ h
              | some m =>
                simp only at h ⊢
                by_cases hm : (if v.isNone then acc else acc ++ [v]).length = m
                · simp only [hm, if_pos rfl] at h ⊢
                  simpa using h
                · simp only [if_neg hm] at h ⊢
                  exact ihR _ _ _ _ _ _ _ h
            | exc r1 => exact h
            | crash => exact h
        | exc r1 => exact h
        | crash => exact h
    · intro ps sep data off acc r h
      match ps with
      | [] => simpa [seriesLoop] using h
      | p :: rest =>
        rw [seriesLoop_cons] at h ⊢
        cases hs : repSepStep f sep data off acc with
        | none => simp [hs] at h
        | some rs =>
          simp only [ihG _ _ _ _ _ hs]
          simp only [hs] at h
          cases rs with
          | ok v1 o1 =>
            cases h1 : parseP f p data o1 with
            | none => simp [h1] at h
            | some r1 =>
              simp only [ihP _ _ _ _ h1]
              simp only [h1] at h
              cases r1 with
              | ok v o2 => exact ihS _ _ _ _ _ _ h
              | exc r1 => exact h
              | crash => exact h
          | exc r1 => exact h
          | crash => exact h

/-- Fuel monotonicity for `parseP`. -/
theorem parseP_mono_le {f g : Nat} (hfg : f ≤ g) {p : Parser} {data : List Char}
    {off : Nat} {r : PRes} (h : parseP f p data off = some r) :
    parseP g p data off = some r := by
  induction hfg with
  | refl => exact h
  | step _ ih => exact (mono_step _).1 _ _ _ _ ih

/-- Fuel monotonicity for `repLoop`. -/
theorem repLoop_mono_le {f g : Nat} (hfg : f ≤ g) {c : Parser} {sep : Option Parser}
    {mx : Option Nat} {data : List Char} {off : Nat} {acc : List Value} {r : LoopRes}
    (h : repLoop f c sep mx data off acc = some r) :
    repLoop g c sep mx data off acc = some r := by
  induction hfg with
  | refl => exact h
  | step _ ih => exact (mono_step _).2.2.1 _ _ _ _ _ _ _ ih


/-! ## Successful steps never move the offset backwards -/

/-- Characterization of a successful `Char` parse: it returns the character
at the offset and advances by exactly one. -/
theorem charImpl_ok {a : Option (List Char)} {i data : List Char} {off : Nat}
    {v : Value} {o : Nat} (h : charImpl a i data off = .ok v o) :
    o = off + 1 ∧ ∃ c, data.get? off = some c ∧ v = .str [c] := by
  unfold charImpl at h
  split at h
  · simp at h
  · split at h
    · simp at h
    next c hg =>
      split at h
      · split at h
        · split at h
          · simp at h
          · cases h; exact ⟨rfl, c, hg, rfl⟩
        · simp at h
      · split at h
        · simp at h
        · cases h; exact ⟨rfl, c, hg, rfl⟩

/-- Offsets never decrease across any successful parse step, separator gate
step, or loop run. -/
theorem off_mono : ∀ f,
    (∀ p data off v o, parseP f p data off = some (.ok v o) → off ≤ o)
    ∧ (∀ sep data off acc v o, repSepStep f sep data off acc = some (.ok v o) → off ≤ o)
    ∧ (∀ c sep mx data off acc res o,
        repLoop f c sep mx data off acc = some (.done res o) → off ≤ o)
    ∧ (∀ ps sep data off acc v o,
        seriesLoop f ps sep data off acc = some (.ok v o) → off ≤ o) := by
  intro f
  induction f with
  | zero =>
    refine ⟨?_, ?_, ?_, ?_⟩
    · intro p data off v o h; simp [parseP] at h
    · intro sep data off acc v o h
      match sep, acc with
      | some s, _ :: _ => simp [repSepStep, parseP] at h
      | some s, [] => simp only [repSepStep] at h; cases h; exact le_refl off
      | none, a => simp only [repSepStep] at h; cases h; exact le_refl off
    · intro c sep mx data off acc res o h; simp [repLoop] at h
    · intro ps sep data off acc v o h
      match ps with
      | [] => simp only [seriesLoop] at h; cases h; exact le_refl off
      | p :: rest => simp [seriesLoop] at h
  | succ f ih =>
    obtain ⟨ihP, ihG, ihR, ihS⟩ := ih
    have hP : ∀ p data off v o, parseP (f+1) p data off = some (.ok v o) → off ≤ o := by
      intro p data off v o h
      match p with
      | .char a i =>
        simp only [parseP, Option.some.injEq] at h
        have := charImpl_ok h
        omega
      | .rep c sep mn mx =>
        simp only [parseP] at h
        cases hr : repLoop f c sep mx data off [] with
        | none => simp [hr] at h
        | some lr =>
          simp only [hr] at h
          cases lr with
          | crash => simp at h
          | done res o2 =>
            have hle := ihR _ _ _ _ _ _ _ _ hr
            cases mn with
            | none => simp only at h; cases h; exact hle
            | some m =>
              simp only at h
              by_cases hm : res.length < m
              · simp [hm] at h
              · simp only [if_neg hm] at h; cases h; exact hle
      | .pair p1 p2 =>
        simp only [parseP] at h
        cases h1 : parseP f p1 data off with
        | none => simp [h1] at h
        | some r1 =>
          simp only [h1] at h
          cases r1 with
          | ok v1 o1 =>
            cases h2 : parseP f p2 data o1 with
            | none => simp [h2] at h
            | some r2 =>
              simp only [h2] at h
              cases r2 with
              | ok v2 o2 =>
                cases h
                exact le_trans (ihP _ _ _ _ _ h1) (ihP _ _ _ _ _ h2)
              | exc r2 => simp at h
              | crash => simp at h
          | exc r1 => simp at h
          | crash => simp at h
      | .series ps sep =>
        simp only [parseP] at h
        exact ihS _ _ _ _ _ _ _ h
      | .funP p t =>
        simp only [parseP] at h
        cases h1 : parseP f p data off with
        | none => simp [h1] at h
        | some r1 =>
          simp only [h1] at h
          cases r1 with
          | ok v1 o1 =>
            cases ht : t v1 with
            | none => simp [ht] at h
            | some v2 =>
              simp only [ht, Option.some.injEq] at h
              cases h
              exact ihP _ _ _ _ _ h1
          | exc r1 => simp at h
          | crash => simp at h
    refine ⟨hP, ?_, ?_, ?_⟩
    · intro sep data off acc v o h
      match sep, acc with
      | some s, _ :: _ =>
        simp only [repSepStep] at h
        exact hP _ _ _ _ _ h
      | some s, [] => simp only [repSepStep] at h; cases h; exact le_refl off
      | none, a => simp only [repSepStep] at h; cases h; exact le_refl off
    · intro c sep mx data off acc res o h
      rw [repLoop_succ] at h
      cases hs : repSepStep f sep data off acc with
      | none => simp [hs] at h
      | some rs =>
        simp only [hs] at h
        cases rs with
        | ok v1 o1 =>
          have hle1 := ihG _ _ _ _ _ _ hs
          cases h1 : parseP f c data o1 with
          | none => simp [h1] at h
          | some r1 =>
            simp only [h1] at h
            cases r1 with
            | ok v o2 =>
              have hle2 := ihP _ _ _ _ _ h1
              cases mx with
              | none =>
                simp only at h
                exact le_trans hle1 (le_trans hle2 (ihR _ _ _ _ _ _ _ _ h))
              | some m =>
                simp only at h
                by_cases hm : (if v.isNone then acc else acc ++ [v]).length = m
                · simp only [hm, if_pos rfl, Option.some.injEq] at h
                  cases h
                  exact le_trans hle1 hle2
                · simp only [if_neg hm] at h
                  exact le_trans hle1 (le_trans hle2 (ihR _ _ _ _ _ _ _ _ h))
            | exc r1 =>
              simp only [Option.some.injEq] at h
              cases h
              exact hle1
            | crash => simp at h
        | exc r1 =>
          simp only [Option.some.injEq] at h
          cases h
          exact le_refl off
        | crash => simp at h
    · intro ps sep data off acc v o h
      match ps with
      | [] => simp only [seriesLoop] at h; cases h; exact le_refl off
      | p :: rest =>
        rw [seriesLoop_cons] at h
        cases hs : repSepStep f sep data off acc with
        | none => simp [hs] at h
        | some rs =>
          simp only [hs] at h
          cases rs with
          | ok v1 o1 =>
            have hle1 := ihG _ _ _ _ _ _ hs
            cases h1 : parseP f p data o1 with
            | none => simp [h1] at h
            | some r1 =>
              simp only [h1] at h
              cases r1 with
              | ok v2 o2 =>
                exact le_trans hle1 (le_trans (ihP _ _ _ _ _ h1) (ihS _ _ _ _ _ _ _ h))
              | exc r1 => simp at h
              | crash => simp at h
          | exc r1 => simp at h
          | crash => simp at h

/-! ## Claim theorems -/

/-- C1 (amended): with the grammar `Lines`, parsing `"abc\ndef\n"` succeeds
with `["abc", "def"]`; parsing `"abc\ndef"` (no trailing newline) does NOT
fail: the failing final `Line` is swallowed by `Repeat`, which ends the
repetition, and `parse_string` silently discards the trailing `"def"`, so the
parse succeeds with the partial result `["abc"]`. -/
theorem c1_lines_behavior :
    parseString 99 LinesP ("abc\ndef\n".toList)
      = some (.ok (.list [.str ['a','b','c'], .str ['d','e','f']]))
    ∧ parseString 99 LinesP ("abc\ndef".toList)
      = some (.ok (.list [.str ['a','b','c']])) := ⟨rfl, rfl⟩

/-- C1 counterexample: on `"abc\ndef"` the `Lines` grammar succeeds with the
partial result `["abc"]` instead of failing, refuting the claimed parse
failure. -/
theorem c1_counterexample :
    parseString 99 LinesP ("abc\ndef".toList)
      = some (.ok (.list [.str ['a','b','c']])) := rfl

/-- C2 counterexample: for `Repeat(Literal "a", separator = Literal ",")` on
`"a,b"`, the separator at offset 1 succeeds (reaching offset 2) and then the
child fails, yet the returned offset is 2, not 1: the text matched by the
successful separator IS counted as consumed. -/
theorem c2_counterexample :
    parseP 99 (.rep (LiteralP ['a']) (some (LiteralP [','])) none none)
      ("a,b".toList) 0 = some (.ok (.list [.str ['a']]) 2) := rfl

/-- C4 counterexample: in `Series(Suppress(Literal "a"), Literal "b",
separator = Literal ",")` on input `"ab"`, the separator is NOT applied
between the two children (the suppressed first child left `results` empty),
so the parse succeeds without any comma present. -/
theorem c4_counterexample :
    parseP 99 (.series [SuppressP (LiteralP ['a']), LiteralP ['b']]
        (some (LiteralP [','])))
      ("ab".toList) 0 = some (.ok (.list [.str ['b']]) 2) := rfl

/-- C6 counterexample: a `Char` parse at an offset strictly past the input
length performs the unguarded index access (an uncaught `IndexError`),
rather than failing with the `EndOfInput` parse failure. -/
theorem c6_counterexample :
    parseP 1 (.char none ['\n']) [] 1 = some .crash
    ∧ parseP 1 (.char none ['\n']) [] 1 ≠ some (.exc .endOfInput) :=
  ⟨rfl, by intro hcon; rw [show parseP 1 (.char none ['\n']) [] 1 = some .crash from rfl] at hcon; simp at hcon⟩

/-- C6 (amended): `Char._parse_impl` matches the spec contract except at
offsets strictly past the end of input: offset equal to the length fails
with `EndOfInput`; a greater offset hits the unguarded `data[offset]` index
access; below the length, the allow-set is checked first
(`UnexpectedCharacter`), then the deny-set (`IllegalCharacter`), then the
parse succeeds with the single character and `offset + 1`. -/
theorem c6_char_contract (a : Option (List Char)) (i data : List Char)
    (off f : Nat) :
    parseP (f+1) (.char a i) data off = some (charSpec a i data off) := by
  simp only [parseP, Option.some.injEq]
  unfold charImpl charSpec
  by_cases he : off = data.length
  · simp [he]
  · simp only [if_neg he]
    by_cases hgt : data.length < off
    · have hn : data.get? off = none := by
        rw [List.get?_eq_none]
        omega
      simp only [if_pos hgt, hn]
    · have hlt : off < data.length := by omega
      simp only [if_neg hgt]
      cases hg : data.get? off with
      | none =>
        have := List.get?_eq_none.mp hg
        omega
      | some c =>
        simp only
        match a with
        | some s =>
          by_cases hs : c ∈ s
          · have hs2 : s.contains c = true := List.elem_iff.mpr hs
            by_cases hi : c ∈ i
            · have hi2 : i.contains c = true := List.elem_iff.mpr hi
              simp [hs, hs2, hi, hi2]
            · have hi2 : ¬ (i.contains c = true) := fun hcon => hi (List.elem_iff.mp hcon)
              simp [hs, hs2, hi, hi2]
          · have hs2 : ¬ (s.contains c = true) := fun hcon => hs (List.elem_iff.mp hcon)
            simp [hs, hs2]
        | none =>
          by_cases hi : c ∈ i
          · have hi2 : i.contains c = true := List.elem_iff.mpr hi
            simp [hi, hi2]
          · have hi2 : ¬ (i.contains c = true) := fun hcon => hi (List.elem_iff.mp hcon)
            simp [hi, hi2]

/-- C7 counterexample: `Repeat(Char(), max = 0)` on `"ab"` returns a result
with 2 elements, exceeding the configured maximum of 0: the
`len(results) == max` stop check is only evaluated after an append, so it
can never fire when `max = 0`. -/
theorem c7_counterexample :
    parseP 99 (.rep (.char none ['\n']) none none (some 0)) ("ab".toList) 0
      = some (.ok (.list [.str ['a'], .str ['b']]) 2)
    ∧ 0 < [Value.str ['a'], Value.str ['b']].length := ⟨rfl, by simp⟩

/-- C5: `parse_string` (and the `parse` adapter built on it) runs the root
parser once at offset 0 and returns the produced value whenever that run
succeeds, regardless of the final offset: unconsumed trailing input is
silently discarded and never causes a failure. -/
theorem c5_partial_consumption_ok (f : Nat) (p : Parser) (data : List Char)
    (g : Value → Value) (v : Value) (o : Nat)
    (h : parseP f p data 0 = some (.ok v o)) :
    parseString f p data = some (.ok v)
    ∧ parseAdapter p g f data = some (.ok (g v)) := by
  constructor
  · unfold parseString
    simp [h]
  · unfold parseAdapter parseString
    simp [h]

/-- C5 witness: a `Char` parse of `"ab"` consumes only the first character
(final offset 1 < length 2) and `parse_string` still succeeds with it. -/
theorem c5_partial_consumption_ok_witness :
    parseString 2 (.char none ['\n']) ("ab".toList) = some (.ok (.str ['a']))
    ∧ parseAdapter (.char none ['\n']) id 2 ("ab".toList)
        = some (.ok (.str ['a'])) :=
  c5_partial_consumption_ok 2 (.char none ['\n']) ("ab".toList) id
    (.str ['a']) 1 rfl

/-- C8: across every successful parse step of any combinator, the returned
offset is at least the starting offset: no combinator rewinds the cursor. -/
theorem c8_offsets_monotone (f : Nat) (p : Parser) (data : List Char)
    (off : Nat) (v : Value) (o : Nat)
    (h : parseP f p data off = some (.ok v o)) : off ≤ o :=
  (off_mono f).1 p data off v o h

/-- C8 witness: instantiated at a `Char` parse of `"ab"` from offset 0. -/
theorem c8_offsets_monotone_witness : (0 : Nat) ≤ 1 :=
  c8_offsets_monotone 2 (.char none ['\n']) ("ab".toList) 0 (.str ['a']) 1 rfl

/-! ## C3: the zero-consumption Repeat is not guarded against -/

/-- `String()` on empty input either runs out of fuel or succeeds with the
empty string while consuming nothing. -/
theorem stringEmpty_eval : ∀ g, parseP g (StringP none ['\n']) [] 0 = none ∨
    parseP g (StringP none ['\n']) [] 0 = some (.ok (.str []) 0) := by
  intro g
  match g with
  | 0 => exact Or.inl rfl
  | 1 => exact Or.inl rfl
  | 2 => exact Or.inl rfl
  | 3 => exact Or.inl rfl
  | g + 4 => exact Or.inr rfl

/-- The loop of `Repeat(String())` on empty input exhausts any amount of
fuel: each iteration succeeds with zero consumption and the loop repeats
from the same state. -/
theorem repString_loop_diverges : ∀ f acc,
    repLoop f (StringP none ['\n']) none none [] 0 acc = none := by
  intro f
  induction f with
  | zero => intro acc; rfl
  | succ f ih =>
    intro acc
    rw [repLoop_succ]
    rw [show repSepStep f none [] 0 acc = some (.ok Value.vnone 0) from rfl]
    rcases stringEmpty_eval f with hnone | hok
    · simp [hnone]
    · simp only [hok]
      rw [show Value.isNone (.str []) = false from rfl]
      simp only [Bool.false_eq_true, if_false]
      exact ih (acc ++ [.str []])

/-- C3 (amended): parsing is NOT guarded against zero-consumption children:
an unbounded `Repeat` whose child succeeds while consuming no input loops
forever.  `Repeat(String())` on empty input never finishes, whatever fuel it
is given. -/
theorem c3_rep_string_diverges : ∀ f,
    parseP f (.rep (StringP none ['\n']) none none none) [] 0 = none := by
  intro f
  match f with
  | 0 => rfl
  | f + 1 =>
    simp only [parseP]
    simp [repString_loop_diverges f []]

/-- C3 counterexample: the parse of `Repeat(String())` on empty input never
terminates with any outcome, success or failure, refuting the claimed
guard against zero-consumption repetition. -/
theorem c3_counterexample :
    ¬ ∃ f r, parseP f (.rep (StringP none ['\n']) none none none) [] 0
        = some r := by
  rintro ⟨f, r, h⟩
  match f with
  | 0 => simp [parseP] at h
  | f + 1 =>
    simp only [parseP] at h
    simp [repString_loop_diverges f []] at h

/-! ## C2: the returned offset of Repeat comes from successful steps only -/

/-- Where the offset returned by the `Repeat` loop comes from: it is either
the loop's starting offset or the end offset of some successful parse of
the child or of the separator.  In particular the offset reached by a
successful separator is kept even when the following child fails. -/
theorem repLoop_offset_src : ∀ f c sep mx data off acc res o,
    repLoop f c sep mx data off acc = some (.done res o) →
    o = off
    ∨ (∃ g s v, parseP g c data s = some (.ok v o))
    ∨ (∃ sp g s v, sep = some sp ∧ parseP g sp data s = some (.ok v o)) := by
  intro f
  induction f with
  | zero => intro c sep mx data off acc res o h; simp [repLoop] at h
  | succ f ih =>
    intro c sep mx data off acc res o h
    rw [repLoop_succ] at h
    cases hs : repSepStep f sep data off acc with
    | none => simp [hs] at h
    | some rs =>
      simp only [hs] at h
      cases rs with
      | crash => simp at h
      | exc r1 =>
        simp only [Option.some.injEq] at h
        cases h
        exact Or.inl rfl
      | ok w o1 =>
        have hgate : o1 = off
            ∨ ∃ sp g s v, sep = some sp ∧ parseP g sp data s = some (.ok v o1) := by
          revert hs
          unfold repSepStep
          match sep, acc with
          | some sp, _ :: _ =>
            intro hs
            exact Or.inr ⟨sp, f, off, w, rfl, hs⟩
          | some sp, [] =>
            intro hs
            cases hs
            exact Or.inl rfl
          | none, a =>
            intro hs
            cases hs
            exact Or.inl rfl
        cases h1 : parseP f c data o1 with
        | none => simp [h1] at h
        | some r1 =>
          simp only [h1] at h
          cases r1 with
          | crash => simp at h
          | exc r2 =>
            simp only [Option.some.injEq] at h
            cases h
            rcases hgate with h2 | h2
            · exact Or.inl h2
            · exact Or.inr (Or.inr h2)
          | ok v o2 =>
            cases mx with
            | none =>
              simp only at h
              rcases ih _ _ _ _ _ _ _ _ h with h2 | h2 | h2
              · exact Or.inr (Or.inl ⟨f, o1, v, h2 ▸ h1⟩)
              · exact Or.inr (Or.inl h2)
              · exact Or.inr (Or.inr h2)
            | some m =>
              simp only at h
              by_cases hm : (if v.isNone then acc else acc ++ [v]).length = m
              · simp only [hm, if_pos rfl, Option.some.injEq] at h
                cases h
                exact Or.inr (Or.inl ⟨f, o1, v, h1⟩)
              · simp only [if_neg hm] at h
                rcases ih _ _ _ _ _ _ _ _ h with h2 | h2 | h2
                · exact Or.inr (Or.inl ⟨f, o1, v, h2 ▸ h1⟩)
                · exact Or.inr (Or.inl h2)
                · exact Or.inr (Or.inr h2)

/-- C2 (amended): when a `Repeat` succeeds, the offset it returns is the
offset reached by the last successful parse step before the loop stopped:
either the starting offset (nothing succeeded), or the end offset of a
successful child parse, or the end offset of a successful separator parse.
A failed attempt itself never contributes to the offset, but a successful
separator immediately preceding a failing child does: its consumption is
reflected in the returned offset. -/
theorem c2_offset_from_successful_steps (f : Nat) (c : Parser)
    (sep : Option Parser) (mn mx : Option Nat) (data : List Char) (off : Nat)
    (res : Value) (o : Nat)
    (h : parseP f (.rep c sep mn mx) data off = some (.ok res o)) :
    o = off
    ∨ (∃ g s v, parseP g c data s = some (.ok v o))
    ∨ (∃ sp g s v, sep = some sp ∧ parseP g sp data s = some (.ok v o)) := by
  match f with
  | 0 => simp [parseP] at h
  | f + 1 =>
    simp only [parseP] at h
    cases hr : repLoop f c sep mx data off [] with
    | none => simp [hr] at h
    | some lr =>
      simp only [hr] at h
      cases lr with
      | crash => simp at h
      | done r2 o2 =>
        have ho : o = o2 := by
          cases mn with
          | none =>
            simp only [Option.some.injEq] at h
            cases h
            rfl
          | some m =>
            simp only at h
            by_cases hm : r2.length < m
            · simp [hm] at h
            · simp only [if_neg hm, Option.some.injEq] at h
              cases h
              rfl
        exact ho ▸ repLoop_offset_src f c sep mx data off [] r2 o2 hr

/-- C2 witness: instantiated at `Repeat(Char())` on `"a\n"`, which stops
after one successful child parse ending at offset 1. -/
theorem c2_offset_from_successful_steps_witness :
    (1 : Nat) = 0
    ∨ (∃ g s v, parseP g (.char none ['\n']) ("a\n".toList) s
        = some (.ok v 1))
    ∨ (∃ sp g s v, (none : Option Parser) = some sp
        ∧ parseP g sp ("a\n".toList) s = some (.ok v 1)) :=
  c2_offset_from_successful_steps 10 (.char none ['\n']) none none none
    ("a\n".toList) 0 (.list [.str ['a']]) 1 rfl

/-! ## C9: None values are omitted from aggregated results -/

/-- A value appended by the loops is never `None`. -/
theorem isNone_false_ne {v : Value} (h : v.isNone = false) : v ≠ .vnone := by
  intro hv
  subst hv
  simp [Value.isNone] at h

/-- The `Repeat` loop never adds `None` to the accumulated results. -/
theorem repLoop_no_none : ∀ f c sep mx data off acc res o,
    Value.vnone ∉ acc →
    repLoop f c sep mx data off acc = some (.done res o) →
    Value.vnone ∉ res := by
  intro f
  induction f with
  | zero => intro c sep mx data off acc res o hacc h; simp [repLoop] at h
  | succ f ih =>
    intro c sep mx data off acc res o hacc h
    rw [repLoop_succ] at h
    cases hs : repSepStep f sep data off acc with
    | none => simp [hs] at h
    | some rs =>
      simp only [hs] at h
      cases rs with
      | crash => simp at h
      | exc r1 =>
        simp only [Option.some.injEq] at h
        cases h
        exact hacc
      | ok w o1 =>
        cases h1 : parseP f c data o1 with
        | none => simp [h1] at h
        | some r1 =>
          simp only [h1] at h
          cases r1 with
          | crash => simp at h
          | exc r2 =>
            simp only [Option.some.injEq] at h
            cases h
            exact hacc
          | ok v o2 =>
            have hacc2 : Value.vnone ∉ (if v.isNone then acc else acc ++ [v]) := by
              by_cases hv : v.isNone
              · simpa [hv] using hacc
              · have hv2 : v.isNone = false := by
                  revert hv
                  cases v.isNone <;> simp
                simp only [hv2, Bool.false_eq_true, if_false, List.mem_append,
                  List.mem_singleton]
                rintro (hmem | hmem)
                · exact hacc hmem
                · exact isNone_false_ne hv2 hmem.symm
            cases mx with
            | none =>
              simp only at h
              exact ih _ _ _ _ _ _ _ _ hacc2 h
            | some m =>
              simp only at h
              by_cases hm : (if v.isNone then acc else acc ++ [v]).length = m
              · simp only [hm, if_pos rfl, Option.some.injEq] at h
                cases h
                exact hacc2
              · simp only [if_neg hm] at h
                exact ih _ _ _ _ _ _ _ _ hacc2 h

/-- The `Series` loop never adds `None` to the accumulated results. -/
theorem seriesLoop_no_none : ∀ f ps sep data off acc res o,
    Value.vnone ∉ acc →
    seriesLoop f ps sep data off acc = some (.ok (.list res) o) →
    Value.vnone ∉ res := by
  intro f
  induction f with
  | zero =>
    intro ps sep data off acc res o hacc h
    match ps with
    | [] =>
      simp only [seriesLoop, Option.some.injEq] at h
      cases h
      exact hacc
    | p :: rest => simp [seriesLoop] at h
  | succ f ih =>
    intro ps sep data off acc res o hacc h
    match ps with
    | [] =>
      simp only [seriesLoop, Option.some.injEq] at h
      cases h
      exact hacc
    | p :: rest =>
      rw [seriesLoop_cons] at h
      cases hs : repSepStep f sep data off acc with
      | none => simp [hs] at h
      | some rs =>
        simp only [hs] at h
        cases rs with
        | crash => simp at h
        | exc r1 => simp at h
        | ok w o1 =>
          cases h1 : parseP f p data o1 with
          | none => simp [h1] at h
          | some r1 =>
            simp only [h1] at h
            cases r1 with
            | crash => simp at h
            | exc r2 => simp at h
            | ok v o2 =>
              have hacc2 : Value.vnone ∉ (if v.isNone then acc else acc ++ [v]) := by
                by_cases hv : v.isNone
                · simpa [hv] using hacc
                · have hv2 : v.isNone = false := by
                    revert hv
                    cases v.isNone <;> simp
                  simp only [hv2, Bool.false_eq_true, if_false, List.mem_append,
                    List.mem_singleton]
                  rintro (hmem | hmem)
                  · exact hacc hmem
                  · exact isNone_false_ne hv2 hmem.symm
              exact ih _ _ _ _ _ _ _ hacc2 h

/-- C9: any child (of `Repeat` or `Series`) whose successful parse produces
the value `None` is omitted from the aggregated result list, whether the
`None` came from `Suppress` or from any other transform: the result list
never contains `None`. -/
theorem c9_none_omitted :
    (∀ f c sep mn mx data off res o,
        parseP f (.rep c sep mn mx) data off = some (.ok (.list res) o) →
        Value.vnone ∉ res)
    ∧ (∀ f ps sep data off res o,
        parseP f (.series ps sep) data off = some (.ok (.list res) o) →
        Value.vnone ∉ res) := by
  constructor
  · intro f c sep mn mx data off res o h
    match f with
    | 0 => simp [parseP] at h
    | f + 1 =>
      simp only [parseP] at h
      cases hr : repLoop f c sep mx data off [] with
      | none => simp [hr] at h
      | some lr =>
        simp only [hr] at h
        cases lr with
        | crash => simp at h
        | done r2 o2 =>
          have hsub : res = r2 := by
            cases mn with
            | none =>
              simp only [Option.some.injEq] at h
              cases h
              rfl
            | some m =>
              simp only at h
              by_cases hm : r2.length < m
              · simp [hm] at h
              · simp only [if_neg hm, Option.some.injEq] at h
                cases h
                rfl
          subst hsub
          exact repLoop_no_none f c sep mx data off [] res o2 (by simp) hr
  · intro f ps sep data off res o h
    match f with
    | 0 => simp [parseP] at h
    | f + 1 =>
      simp only [parseP] at h
      exact seriesLoop_no_none f ps sep data off [] res o (by simp) h

/-- C9 witness: `Repeat(Suppress(Char()))` on `"ab"` yields an empty result,
and `Series(Suppress(Char()), Char())` on `"ab"` a result without `None`. -/
theorem c9_none_omitted_witness :
    Value.vnone ∉ ([] : List Value)
    ∧ Value.vnone ∉ ([Value.str ['b']] : List Value) :=
  ⟨c9_none_omitted.1 20 (SuppressP (.char none ['\n'])) none none none
      ("ab".toList) 0 [] 2 rfl,
   c9_none_omitted.2 20 [SuppressP (.char none ['\n']), .char none ['\n']]
      none ("ab".toList) 0 [Value.str ['b']] 2 rfl⟩

/-! ## C4: the separator gate tests accumulated results, not children run -/

/-- C4 (amended): in `Series(Suppress(p), q, separator=s)` the separator is
NOT applied between `p` and `q`: the gate `if self.separator_parser is not
None and results:` tests the accumulated (non-`None`) results, which the
suppressed first child left empty.  Whatever separator `s` is configured,
whenever `p` succeeds ending at `o1`, the series continues directly with `q`
at `o1` and produces `q`'s outcome (its value appended unless `None`). -/
theorem c4_sep_skipped_after_suppressed (p q s : Parser) (data : List Char)
    (off : Nat) (v : Value) (o1 : Nat) (rq : PRes)
    (hp : Runs p data off (.ok v o1)) (hq : Runs q data o1 rq) :
    Runs (.series [SuppressP p, q] (some s)) data off (seriesTailOutcome rq) := by
  obtain ⟨f1, h1⟩ := hp
  obtain ⟨f2, h2⟩ := hq
  refine ⟨f1 + f2 + 1 + 1 + 1 + 1, ?_⟩
  have hp2 : parseP (f1 + f2 + 1) p data off = some (.ok v o1) :=
    parseP_mono_le (by omega) h1
  have hq2 : parseP (f1 + f2 + 1) q data o1 = some rq :=
    parseP_mono_le (by omega) h2
  simp only [parseP]
  rw [seriesLoop_cons]
  simp only [show repSepStep (f1 + f2 + 1 + 1) (some s) data off []
      = some (.ok Value.vnone off) from rfl]
  simp only [SuppressP]
  simp only [parseP]
  simp only [hp2]
  simp only [show Value.isNone Value.vnone = true from rfl, if_true]
  rw [seriesLoop_cons]
  simp only [show repSepStep (f1 + f2 + 1) (some s) data o1 []
      = some (.ok Value.vnone o1) from rfl]
  simp only [hq2]
  cases rq with
  | ok w o2 =>
    simp only [seriesTailOutcome, seriesLoop]
    by_cases hw : w.isNone
    · simp [hw]
    · have hw2 : w.isNone = false := by
        revert hw
        cases w.isNone <;> simp
      simp [hw2]
  | exc r => simp [seriesTailOutcome]
  | crash => simp [seriesTailOutcome]

/-- C4 witness: `Series(Suppress(Literal "a"), Literal "b", separator =
Literal ",")` on `"ab"` behaves exactly as if no separator were configured. -/
theorem c4_sep_skipped_after_suppressed_witness :
    Runs (.series [SuppressP (LiteralP ['a']), LiteralP ['b']]
        (some (LiteralP [','])))
      ("ab".toList) 0 (.ok (.list [.str ['b']]) 2) :=
  c4_sep_skipped_after_suppressed (LiteralP ['a']) (LiteralP ['b'])
    (LiteralP [',']) ("ab".toList) 0 (.str ['a']) 1 (.ok (.str ['b']) 2)
    ⟨9, rfl⟩ ⟨9, rfl⟩

/-! ## C7: repetition counts -/

/-- A value distinct from `None` fails the `isNone` test. -/
theorem ne_vnone_isNone {v : Value} (h : v ≠ .vnone) : v.isNone = false := by
  cases v
  case vnone => exact absurd rfl h
  all_goals rfl

/-- Running the `Repeat` loop (no separator) over a chain of `k` successful
non-`None` child parses followed by a child `ParseException`, with the
maximum not yet reachable, appends exactly the chain's values and stops at
the chain's end offset. -/
theorem chain_repLoop (c : Parser) (data : List Char) (M : Nat)
    {vs : List Value} {off oEnd : Nat} (hch : Chain c data off vs oEnd) :
    FailsExc c data oEnd →
    ∀ acc : List Value, acc.length + vs.length < M →
    ∃ f, repLoop f c none (some M) data off acc
        = some (.done (acc ++ vs) oEnd) := by
  induction hch with
  | nil off0 =>
    intro hfail acc hlen
    obtain ⟨g, r, hg⟩ := hfail
    refine ⟨g + 1, ?_⟩
    rw [repLoop_succ]
    simp only [show repSepStep g none data off0 acc
        = some (.ok Value.vnone off0) from rfl]
    simp only [hg]
    simp
  | cons hstep hne hrest ih =>
    rename_i off1 v o1 vs2 oEnd2
    intro hfail acc hlen
    obtain ⟨f2, h2⟩ := ih hfail (acc ++ [v]) (by simp at hlen ⊢; omega)
    obtain ⟨g1, h1⟩ := hstep
    refine ⟨(g1 + f2) + 1, ?_⟩
    rw [repLoop_succ]
    simp only [show repSepStep (g1 + f2) none data off1 acc
        = some (.ok Value.vnone off1) from rfl]
    simp only [parseP_mono_le (Nat.le_add_right g1 f2) h1]
    simp only [ne_vnone_isNone hne, Bool.false_eq_true, if_false]
    have hltM : ¬ ((acc ++ [v]).length = M) := by simp at hlen ⊢; omega
    simp only [if_neg hltM]
    rw [repLoop_mono_le (Nat.le_add_left f2 g1) h2]
    simp

/-- When the maximum is positive, the `Repeat` loop never returns more
elements than the maximum. -/
theorem repLoop_length_le : ∀ f c sep M data off acc res o,
    acc.length < M →
    repLoop f c sep (some M) data off acc = some (.done res o) →
    res.length ≤ M := by
  intro f
  induction f with
  | zero => intro c sep M data off acc res o hlen h; simp [repLoop] at h
  | succ f ih =>
    intro c sep M data off acc res o hlen h
    rw [repLoop_succ] at h
    cases hs : repSepStep f sep data off acc with
    | none => simp [hs] at h
    | some rs =>
      simp only [hs] at h
      cases rs with
      | crash => simp at h
      | exc r1 =>
        simp only [Option.some.injEq] at h
        cases h
        omega
      | ok w o1 =>
        cases h1 : parseP f c data o1 with
        | none => simp [h1] at h
        | some r1 =>
          simp only [h1] at h
          cases r1 with
          | crash => simp at h
          | exc r2 =>
            simp only [Option.some.injEq] at h
            cases h
            omega
          | ok v o2 =>
            simp only at h
            by_cases hm : (if v.isNone then acc else acc ++ [v]).length = M
            · simp only [hm, if_pos rfl, Option.some.injEq] at h
              cases h
              omega
            · simp only [if_neg hm] at h
              have hb : (if v.isNone then acc else acc ++ [v]).length ≤ acc.length + 1 := by
                by_cases hv : v.isNone <;> simp [hv]
              exact ih _ _ _ _ _ _ _ _ (by omega) h

/-- C7 (amended): over an input on which the child succeeds exactly `k`
consecutive times with non-`None` values and then raises a parse failure,
with `k < M`, `Repeat(child, min = m, max = M)` succeeds with exactly those
`k` values if `m ≤ k` and fails with `InsufficientRepetitions` if `k < m`;
and whenever `M ≥ 1`, a successful `Repeat` with `max = M` never returns
more than `M` elements (for `M = 0` the maximum is ignored, see the
counterexample). -/
theorem c7_repeat_counts :
    (∀ c data off vs oEnd m M,
        Chain c data off vs oEnd → FailsExc c data oEnd → vs.length < M →
        (m ≤ vs.length →
          Runs (.rep c none (some m) (some M)) data off (.ok (.list vs) oEnd))
        ∧ (vs.length < m →
          Runs (.rep c none (some m) (some M)) data off
            (.exc .insufficientReps)))
    ∧ (∀ f c sep mn M data off res o, 1 ≤ M →
        parseP f (.rep c sep mn (some M)) data off = some (.ok (.list res) o) →
        res.length ≤ M) := by
  constructor
  · intro c data off vs oEnd m M hch hfail hlen
    obtain ⟨f, hloop⟩ := chain_repLoop c data M hch hfail [] (by simpa using hlen)
    constructor
    · intro hm
      refine ⟨f + 1, ?_⟩
      simp only [parseP]
      simp only [hloop]
      simp only [show ([] : List Value) ++ vs = vs from by simp]
      simp [Nat.not_lt.mpr hm]
    · intro hm
      refine ⟨f + 1, ?_⟩
      simp only [parseP]
      simp only [hloop]
      simp only [show ([] : List Value) ++ vs = vs from by simp]
      simp [hm]
  · intro f c sep mn M data off res o hM h
    match f with
    | 0 => simp [parseP] at h
    | f + 1 =>
      simp only [parseP] at h
      cases hr : repLoop f c sep (some M) data off [] with
      | none => simp [hr] at h
      | some lr =>
        simp only [hr] at h
        cases lr with
        | crash => simp at h
        | done r2 o2 =>
          have hsub : res = r2 := by
            cases mn with
            | none =>
              simp only [Option.some.injEq] at h
              cases h
              rfl
            | some m =>
              simp only at h
              by_cases hm : r2.length < m
              · simp [hm] at h
              · simp only [if_neg hm, Option.some.injEq] at h
                cases h
                rfl
          subst hsub
          exact repLoop_length_le f c sep M data off [] res o2 (by simpa) hr

/-- C7 witness: a one-element chain over `Char()` on `"a\n"` (the newline
fails the default deny-set) with `min = 1`, `max = 2`; and the bound applied
to `Repeat(Char(), max = 1)` on `"ab"`. -/
theorem c7_repeat_counts_witness :
    Runs (.rep (.char none ['\n']) none (some 1) (some 2)) ("a\n".toList) 0
      (.ok (.list [.str ['a']]) 1)
    ∧ [Value.str ['a']].length ≤ 1 :=
  ⟨(c7_repeat_counts.1 (.char none ['\n']) ("a\n".toList) 0 [.str ['a']] 1
      1 2
      (Chain.cons ⟨1, rfl⟩ (by simp) (Chain.nil 1))
      ⟨1, .illegalChar, rfl⟩ (by simp)).1 (by simp),
   c7_repeat_counts.2 20 (.char none ['\n']) none none 1 ("ab".toList) 0
      [.str ['a']] 1 (by simp) rfl⟩

/-! ## C10: Int() requires at least one digit -/

/-- One unfolding of `parseP` on a `Char` node. -/
theorem parseP_char (f : Nat) (a : Option (List Char)) (i data : List Char)
    (off : Nat) :
    parseP (f+1) (.char a i) data off = some (charImpl a i data off) := rfl

/-- One unfolding of `parseP` on a `FunctionParser` node. -/
theorem parseP_funP (f : Nat) (p : Parser) (t : Value → Option Value)
    (data : List Char) (off : Nat) :
    parseP (f+1) (.funP p t) data off =
      match parseP f p data off with
      | none => none
      | some (.ok v o) =>
        match t v with
        | some v2 => some (.ok v2 o)
        | none => some (.exc .postParse)
      | some e => some e := rfl

/-- One unfolding of `parseP` on a `Pair` node. -/
theorem parseP_pair (f : Nat) (p1 p2 : Parser) (data : List Char) (off : Nat) :
    parseP (f+1) (.pair p1 p2) data off =
      match parseP f p1 data off with
      | none => none
      | some (.ok v1 o1) =>
        match parseP f p2 data o1 with
        | none => none
        | some (.ok v2 o2) => some (.ok (.list [v1, v2]) o2)
        | some e => some e
      | some e => some e := rfl

/-- One unfolding of `parseP` on a `Repeat` node. -/
theorem parseP_rep (f : Nat) (c : Parser) (sep : Option Parser)
    (mn mx : Option Nat) (data : List Char) (off : Nat) :
    parseP (f+1) (.rep c sep mn mx) data off =
      match repLoop f c sep mx data off [] with
      | none => none
      | some .crash => some .crash
      | some (.done res o) =>
        match mn with
        | some m => if res.length < m then some (.exc .insufficientReps)
                    else some (.ok (.list res) o)
        | none => some (.ok (.list res) o) := rfl

/-- A successful `Char` parse with an allow-set took its character from the
allow-set. -/
theorem charImpl_ok_allowed {s i data : List Char} {off : Nat} {v : Value}
    {o : Nat} (h : charImpl (some s) i data off = .ok v o) :
    ∃ c, data.get? off = some c ∧ s.contains c = true ∧ o = off + 1 := by
  unfold charImpl at h
  split at h
  · simp at h
  · split at h
    · simp at h
    next c hg =>
      simp only [] at h
      split at h
      next hc =>
        split at h
        · simp at h
        · cases h
          exact ⟨c, hg, hc, rfl⟩
      next hc => simp at h

/-- A finished run of `Repeat(Char(allow-set A))` either consumed nothing
(the very first character failed) or consumed at least one character from
the allow-set. -/
theorem repLoopChar_done {A i : List Char} {f : Nat} {data : List Char}
    {off : Nat} {acc res : List Value} {o : Nat}
    (h : repLoop f (.char (some A) i) none none data off acc
        = some (.done res o)) :
    (res = acc ∧ o = off)
    ∨ (∃ c, data.get? off = some c ∧ A.contains c = true ∧ off + 1 ≤ o) := by
  match f with
  | 0 => simp [repLoop] at h
  | f + 1 =>
    rw [repLoop_succ] at h
    simp only [show repSepStep f none data off acc
        = some (.ok Value.vnone off) from rfl] at h
    cases h1 : parseP f (.char (some A) i) data off with
    | none => simp [h1] at h
    | some r1 =>
      simp only [h1] at h
      cases r1 with
      | crash => simp at h
      | exc r2 =>
        simp only [Option.some.injEq] at h
        cases h
        exact Or.inl ⟨rfl, rfl⟩
      | ok v o1 =>
        match f, h1 with
        | f + 1, h1 =>
          rw [parseP_char] at h1
          have hch := charImpl_ok_allowed (Option.some.inj h1)
          obtain ⟨c, hg, hc, ho1⟩ := hch
          simp only at h
          have := (off_mono (f+1)).2.2.1 _ _ _ _ _ _ _ _ h
          exact Or.inr ⟨c, hg, hc, by omega⟩

/-- A successful `String(allowed_chars = A)` parse either produced the empty
string without consuming anything, or consumed at least one character from
the allow-set. -/
theorem stringPA_ok {A i : List Char} {g : Nat} {data : List Char} {off : Nat}
    {w : Value} {o : Nat}
    (h : parseP g (.funP (.rep (.char (some A) i) none none none) joinT)
        data off = some (.ok w o)) :
    (w = .str [] ∧ o = off)
    ∨ (∃ c, data.get? off = some c ∧ A.contains c = true ∧ off + 1 ≤ o) := by
  match g with
  | 0 => simp [parseP] at h
  | g + 1 =>
    rw [parseP_funP] at h
    cases hr : parseP g (.rep (.char (some A) i) none none none) data off with
    | none => simp [hr] at h
    | some r =>
      simp only [hr] at h
      cases r with
      | crash => simp at h
      | exc r2 => simp at h
      | ok vr or1 =>
        simp only [] at h
        match g, hr with
        | g + 1, hr =>
          rw [parseP_rep] at hr
          cases hl : repLoop g (.char (some A) i) none none data off [] with
          | none => simp [hl] at hr
          | some lr =>
            simp only [hl] at hr
            cases lr with
            | crash => simp at hr
            | done res o3 =>
              simp only [Option.some.injEq] at hr
              cases hr
              rcases repLoopChar_done hl with ⟨hres, ho⟩ | hdig
              · subst hres
                rw [show joinT (.list []) = some (.str []) from rfl] at h
                simp only [Option.some.injEq] at h
                cases h
                exact Or.inl ⟨rfl, ho⟩
              · cases ht : joinT (.list res) with
                | none => simp [ht] at h
                | some w2 =>
                  simp only [ht, Option.some.injEq] at h
                  cases h
                  exact Or.inr hdig

/-- `String(allowed_chars = "")` can only produce the empty string without
consuming input: its `Char` can never succeed. -/
theorem padStringEmpty_ok {i : List Char} {g : Nat} {data : List Char}
    {off : Nat} {w : Value} {o : Nat}
    (h : parseP g (.funP (.rep (.char (some []) i) none none none) joinT)
        data off = some (.ok w o)) : w = .str [] ∧ o = off := by
  rcases stringPA_ok h with ⟨h1, h2⟩ | ⟨c, _, hc, _⟩
  · exact ⟨h1, h2⟩
  · simp at hc

/-- Python `int(s, b)` never succeeds on the empty string. -/
theorem pyInt_ne_nil {b : Nat} {s : List Char} {n : Int}
    (h : pyInt b s = some n) : s ≠ [] := by
  intro hs
  subst hs
  simp [pyInt] at h

/-- `lstrip` with an empty strip-set leaves the string unchanged. -/
theorem lstrip_nil (s : List Char) : lstrip [] s = s := by
  cases s with
  | nil => rfl
  | cons c cs => simp [lstrip, List.dropWhile_cons]

/-- At the end of input or at any present character, a `Char` parser with an
empty allow-set raises a `ParseException`. -/
theorem charImplFail_any {i data : List Char} {off : Nat}
    (hh : off = data.length ∨ ∃ c, data.get? off = some c) :
    ∃ r, charImpl (some []) i data off = .exc r := by
  rcases hh with he | ⟨c, hc⟩
  · exact ⟨.endOfInput, by unfold charImpl; simp [he]⟩
  · refine ⟨.unexpectedChar, ?_⟩
    have hne : off ≠ data.length := by
      intro he
      rw [List.get?_eq_none.mpr (by omega)] at hc
      cases hc
    unfold charImpl
    simp only [if_neg hne, hc]
    simp

/-- At the end of input or at a non-digit character, the digit `Char`
parser raises a `ParseException`. -/
theorem charImplFail_nondigit {data : List Char} {off : Nat}
    (hh : off = data.length ∨
      ∃ c, data.get? off = some c ∧ digitsList.contains c = false) :
    ∃ r, charImpl (some digitsList) ['\n'] data off = .exc r := by
  rcases hh with he | ⟨c, hc, hcc⟩
  · exact ⟨.endOfInput, by unfold charImpl; simp [he]⟩
  · refine ⟨.unexpectedChar, ?_⟩
    have hne : off ≠ data.length := by
      intro he
      rw [List.get?_eq_none.mpr (by omega)] at hc
      cases hc
    have hmem : c ∉ digitsList := by
      intro hm
      rw [show digitsList.contains c = digitsList.elem c from rfl,
        List.elem_iff.mpr hm] at hcc
      cases hcc
    unfold charImpl
    simp only [if_neg hne, hc]
    simp [hmem]

/-- When its `Char` fails at the current position, a `String` parser
succeeds immediately with the empty string and no consumption. -/
theorem stringP_fail_empty {A i : List Char} {data : List Char} {off : Nat}
    {r : Reason} (hch : charImpl (some A) i data off = .exc r) :
    ∀ g, parseP (g+1+1+1+1)
        (.funP (.rep (.char (some A) i) none none none) joinT) data off
      = some (.ok (.str []) off) := by
  intro g
  rw [parseP_funP, parseP_rep, repLoop_succ]
  simp only [show repSepStep (g+1) none data off []
      = some (.ok Value.vnone off) from rfl]
  rw [parseP_char]
  simp only [hch]
  rfl

/-- C10: `Int()` (with empty padding, base 10) fails with the uniform
`PostParseFailure` on every input whose character at the starting offset is
missing (end of input) or not a digit: both sub-strings match emptily and
`int("")` raises, which `FunctionParser` folds into a `ParseException`.
Conversely a successful `Int()` parse always consumed at least one
character and started on a digit. -/
theorem c10_int_requires_digit :
    (∀ data off,
        (off = data.length ∨
          ∃ c, data.get? off = some c ∧ digitsList.contains c = false) →
        Runs (IntP 10 []) data off (.exc .postParse))
    ∧ (∀ f data off v o,
        parseP f (IntP 10 []) data off = some (.ok v o) →
        off < o ∧ ∃ c, data.get? off = some c ∧ digitsList.contains c = true) := by
  constructor
  · intro data off hh
    obtain ⟨r1, hch1⟩ := charImplFail_any (i := ['\n'])
      (by rcases hh with h | ⟨c, hc, _⟩
          · exact Or.inl h
          · exact Or.inr ⟨c, hc⟩)
    obtain ⟨r2, hch2⟩ := charImplFail_nondigit hh
    refine ⟨0+1+1+1+1+1+1, ?_⟩
    simp only [IntP, StringP]
    rw [parseP_funP, parseP_pair]
    simp only [stringP_fail_empty hch1 0]
    simp only [stringP_fail_empty hch2 0]
    rfl
  · intro f data off v o h
    match f with
    | 0 => simp [parseP] at h
    | f + 1 =>
      simp only [IntP, StringP] at h
      rw [parseP_funP] at h
      cases hp : parseP f (.pair
          (.funP (.rep (.char (some []) ['\n']) none none none) joinT)
          (.funP (.rep (.char (some digitsList) ['\n']) none none none) joinT))
          data off with
      | none => simp [hp] at h
      | some rp =>
        simp only [hp] at h
        cases rp with
        | crash => simp at h
        | exc r2 => simp at h
        | ok vp op =>
          simp only [] at h
          match f, hp with
          | f + 1, hp =>
            rw [parseP_pair] at hp
            cases h1 : parseP f
                (.funP (.rep (.char (some []) ['\n']) none none none) joinT)
                data off with
            | none => simp [h1] at hp
            | some r1 =>
              simp only [h1] at hp
              cases r1 with
              | crash => simp at hp
              | exc r3 => simp at hp
              | ok w1 oMid =>
                simp only [] at hp
                obtain ⟨hw1, hoMid⟩ := padStringEmpty_ok h1
                rw [hoMid] at hp
                cases h2 : parseP f
                    (.funP (.rep (.char (some digitsList) ['\n']) none none none)
                      joinT) data off with
                | none => simp [h2] at hp
                | some r2 =>
                  simp only [h2] at hp
                  cases r2 with
                  | crash => simp at hp
                  | exc r4 => simp at hp
                  | ok w2 o2 =>
                    simp only [Option.some.injEq] at hp
                    cases hp
                    cases w2 with
                    | str sdig =>
                      rw [show intT 10 [] (.list [w1, .str sdig])
                          = (pyInt 10 (lstrip [] sdig)).map .int from rfl] at h
                      rw [lstrip_nil] at h
                      cases hpy : pyInt 10 sdig with
                      | none => simp [hpy] at h
                      | some n =>
                        simp only [hpy] at h
                        rw [show Option.map Value.int (some n)
                            = some (Value.int n) from rfl] at h
                        simp only [] at h
                        have hs_ne : sdig ≠ [] := pyInt_ne_nil hpy
                        rcases stringPA_ok h2 with ⟨hw, _⟩ | ⟨c, hgc, hcc, hlt⟩
                        · injection hw with hw2
                          exact absurd hw2 hs_ne
                        · injection h with h3
                          cases h3
                          exact ⟨by omega, c, hgc, hcc⟩
                    | int n =>
                      rw [show intT 10 [] (.list [w1, .int n]) = none from rfl] at h
                      simp at h
                    | vnone =>
                      rw [show intT 10 [] (.list [w1, .vnone]) = none from rfl] at h
                      simp at h
                    | list l =>
                      rw [show intT 10 [] (.list [w1, .list l]) = none from rfl] at h
                      simp at h

/-- C10 witness: `Int()` on `"x"` fails with the uniform post-parse failure,
and the successful parse of `"12"` starts on the digit `1` and consumes both
characters. -/
theorem c10_int_requires_digit_witness :
    Runs (IntP 10 []) ['x'] 0 (.exc .postParse)
    ∧ (0 < 2 ∧ ∃ c, ("12".toList).get? 0 = some c
        ∧ digitsList.contains c = true) :=
  ⟨c10_int_requires_digit.1 ['x'] 0 (Or.inr ⟨'x', rfl, rfl⟩),
   c10_int_requires_digit.2 99 ("12".toList) 0 (.int 12) 2 rfl⟩

end AoC
